import Mathlib

/-!
Verification of the gitqq CLI (Amanbig/gitqq, `index.js`) against its
natural-language specification.  All definitions below are shallow embeddings
of the JavaScript source: JavaScript objects used as string-keyed maps become
association lists (`setKey` / `delKey` / `lookupKey` reproduce property
assignment, `delete`, and property lookup), the persisted configuration file
becomes the rendered character list produced by a faithful model of
`JSON.stringify(config, null, 2)`, and `JSON.parse` becomes an executable
recursive-descent reader of the same fragment.  Fallible operations return
`Option`; the external `git` processes are parameters of the functions that
shell out to them.
-/

namespace GitQQ

/-! ## JavaScript object primitives

`this.config.accounts[username] = data`, `delete this.config.accounts[u]`
and `this.config.accounts[u]` on a JavaScript object with string keys.
Assignment to an existing key replaces the stored value in place (keeping
the key's position); assignment to a fresh key appends it. -/

def setKey {α : Type} : List (String × α) → String → α → List (String × α)
  | [], k, v => [(k, v)]
  | (k1, v1) :: tl, k, v =>
      if k1 = k then (k, v) :: tl else (k1, v1) :: setKey tl k v

def delKey {α : Type} : List (String × α) → String → List (String × α)
  | [], _ => []
  | (k1, v1) :: tl, k =>
      if k1 = k then delKey tl k else (k1, v1) :: delKey tl k

def lookupKey {α : Type} : List (String × α) → String → Option α
  | [], _ => none
  | (k1, v1) :: tl, k => if k1 = k then some v1 else lookupKey tl k

theorem lookupKey_delKey_self {α : Type} (m : List (String × α)) (k : String) :
    lookupKey (delKey m k) k = none := by
  induction m with
  | nil => rfl
  | cons hd tl ih =>
      obtain ⟨k1, v1⟩ := hd
      by_cases h : k1 = k <;> simp [delKey, lookupKey, h, ih]

theorem lookupKey_delKey_other {α : Type} (m : List (String × α)) (k q : String)
    (h : k ≠ q) : lookupKey (delKey m k) q = lookupKey m q := by
  induction m with
  | nil => rfl
  | cons hd tl ih =>
      obtain ⟨k1, v1⟩ := hd
      by_cases h1 : k1 = k
      · subst h1
        simp [delKey, lookupKey, h, ih]
      · by_cases h2 : k1 = q <;>
          simp [delKey, lookupKey, h1, h2, ih, Ne.symm h]

theorem lookupKey_setKey_other {α : Type} (m : List (String × α)) (k q : String)
    (v : α) (h : k ≠ q) : lookupKey (setKey m k v) q = lookupKey m q := by
  induction m with
  | nil => simp [setKey, lookupKey, h]
  | cons hd tl ih =>
      obtain ⟨k1, v1⟩ := hd
      by_cases h1 : k1 = k
      · subst h1
        simp [setKey, lookupKey, h]
      · by_cases h2 : k1 = q <;>
          simp [setKey, lookupKey, h1, h2, ih, Ne.symm h]

/-! ## The account store (`ConfigManager`, index.js lines 13–96)

An `Account` is the record stored by `CLI.addAccount` (lines 520–525):
`{name, email, sshKey, customKey}`.  The configuration object starts as
`{accounts: {}, currentAccount: null}` (line 28); the `defaultBranch` and
`repoSettings` keys only appear once `setDefaultBranch` (line 589) or
`setRepoInitialized` (line 84) is first executed, which `Option` records. -/

structure Account where
  name : String
  email : String
  sshKey : String
  customKey : Bool
deriving DecidableEq, Repr

structure RepoSetting where
  initialBranchSelected : Bool
  selectedBranch : String
deriving DecidableEq, Repr

structure Config where
  accounts : List (String × Account)
  currentAccount : Option String
  defaultBranch : Option String
  repoSettings : Option (List (String × RepoSetting))
deriving DecidableEq, Repr

def initialConfig : Config :=
  { accounts := [], currentAccount := none, defaultBranch := none,
    repoSettings := none }

namespace ConfigManager

/-- `ConfigManager.addAccount` (lines 39–42): store the record under the
username key and persist. -/
def addAccount (c : Config) (username : String) (data : Account) : Config :=
  { c with accounts := setKey c.accounts username data }

/-- `ConfigManager.removeAccount` (lines 44–50): delete the entry; if the
removed handle was the current account, null the pointer. -/
def removeAccount (c : Config) (username : String) : Config :=
  { c with
      accounts := delKey c.accounts username,
      currentAccount :=
        if c.currentAccount = some username then none else c.currentAccount }

/-- `ConfigManager.setCurrentAccount` (lines 52–55). -/
def setCurrentAccount (c : Config) (username : String) : Config :=
  { c with currentAccount := some username }

/-- `CLI.setDefaultBranch` (lines 589–592): writes `config.defaultBranch`. -/
def setDefaultBranch (c : Config) (branch : String) : Config :=
  { c with defaultBranch := some branch }

/-- `ConfigManager.setRepoInitialized` (lines 84–95): creates the
`repoSettings` object when missing and stores
`{initialBranchSelected: true, selectedBranch: branchName}` under the
working-directory key. -/
def setRepoInitialized (c : Config) (cwd branchName : String) : Config :=
  { c with
      repoSettings :=
        some (setKey (c.repoSettings.getD [])
          cwd { initialBranchSelected := true, selectedBranch := branchName }) }

/-- `ConfigManager.getCurrentAccount` (lines 57–68): a falsy handle
(`null` or the empty string) yields `null`; a handle with no entry in
`accounts` yields `null`; otherwise the identity is returned together with
its handle (`{username, ...data}`). -/
def getCurrentAccount (c : Config) : Option (String × Account) :=
  match c.currentAccount with
  | none => none
  | some u =>
      if u = "" then none
      else
        match lookupKey c.accounts u with
        | some a => some (u, a)
        | none => none

end ConfigManager

/-- The public mutation operations of the store, used to describe the
configurations reachable from the empty store. -/
inductive Op where
  | add (username : String) (data : Account)
  | remove (username : String)
  | setCurrent (username : String)
  | setRepoInit (cwd branch : String)
  | setDefault (branch : String)

def applyOp (c : Config) : Op → Config
  | .add u d => ConfigManager.addAccount c u d
  | .remove u => ConfigManager.removeAccount c u
  | .setCurrent u => ConfigManager.setCurrentAccount c u
  | .setRepoInit cwd b => ConfigManager.setRepoInitialized c cwd b
  | .setDefault b => ConfigManager.setDefaultBranch c b

def applyOps (ops : List Op) : Config :=
  ops.foldl applyOp initialConfig

/-! ## Claims C3, C8, C9 -/

/-- C3: removing the active handle clears the active pointer and deletes the
identity; removing a non-active handle leaves the active pointer unchanged. -/
theorem removeAccount_active_clears_pointer (c : Config) (h : String) :
    (c.currentAccount = some h →
        (ConfigManager.removeAccount c h).currentAccount = none ∧
        lookupKey (ConfigManager.removeAccount c h).accounts h = none) ∧
    (c.currentAccount ≠ some h →
        (ConfigManager.removeAccount c h).currentAccount = c.currentAccount) := by
  constructor
  · intro hact
    refine ⟨?_, ?_⟩
    · simp [ConfigManager.removeAccount, hact]
    · simpa [ConfigManager.removeAccount] using lookupKey_delKey_self c.accounts h
  · intro hne
    simp [ConfigManager.removeAccount, hne]

/-- Witness for C3: a concrete store whose active handle "alice" is removed. -/
theorem removeAccount_active_clears_pointer_witness :
    (ConfigManager.removeAccount
        { accounts := [("alice", ⟨"Alice", "a@x.io", "id_alice", true⟩)],
          currentAccount := some "alice", defaultBranch := none,
          repoSettings := none } "alice").currentAccount = none :=
  (removeAccount_active_clears_pointer
      { accounts := [("alice", ⟨"Alice", "a@x.io", "id_alice", true⟩)],
        currentAccount := some "alice", defaultBranch := none,
        repoSettings := none } "alice").1 rfl |>.1

/-- C8 counterexample: `addAccount` on an existing handle overwrites the stored
identity in place — an operation other than removal changes the identity. -/
theorem addAccount_overwrites_existing_identity :
    lookupKey (ConfigManager.addAccount
        { accounts := [("alice", ⟨"Alice", "a@x.io", "id_alice", true⟩)],
          currentAccount := some "alice", defaultBranch := none,
          repoSettings := none } "alice"
        ⟨"Mallory", "m@x.io", "id_mallory", false⟩).accounts "alice" ≠
      lookupKey
        ({ accounts := [("alice", ⟨"Alice", "a@x.io", "id_alice", true⟩)],
           currentAccount := some "alice", defaultBranch := none,
           repoSettings := none } : Config).accounts "alice" := by
  decide

/-- C8 (amended): the identity stored at a handle `h` is changed only by an
explicit removal of `h` or by a re-`addAccount` under the same handle `h`;
`setCurrentAccount`, `setDefaultBranch`, `setRepoInitialized`, and add/remove
of a different handle leave it untouched. -/
theorem identity_frame_property (c : Config) (h u : String) (a : Account)
    (cwd b br : String) :
    (ConfigManager.setCurrentAccount c u).accounts = c.accounts ∧
    (ConfigManager.setDefaultBranch c b).accounts = c.accounts ∧
    (ConfigManager.setRepoInitialized c cwd br).accounts = c.accounts ∧
    (u ≠ h →
      lookupKey (ConfigManager.addAccount c u a).accounts h =
        lookupKey c.accounts h) ∧
    (u ≠ h →
      lookupKey (ConfigManager.removeAccount c u).accounts h =
        lookupKey c.accounts h) := by
  refine ⟨rfl, rfl, rfl, ?_, ?_⟩
  · intro hne
    simpa [ConfigManager.addAccount] using
      lookupKey_setKey_other c.accounts u h a hne
  · intro hne
    simpa [ConfigManager.removeAccount] using
      lookupKey_delKey_other c.accounts u h hne

/-- Witness for the amended C8: adding "bob" leaves "alice"'s identity as it
was. -/
theorem identity_frame_property_witness :
    lookupKey (ConfigManager.addAccount
        { accounts := [("alice", ⟨"Alice", "a@x.io", "id_alice", true⟩)],
          currentAccount := some "alice", defaultBranch := none,
          repoSettings := none } "bob"
        ⟨"Bob", "b@x.io", "id_bob", false⟩).accounts "alice" =
      lookupKey
        ({ accounts := [("alice", ⟨"Alice", "a@x.io", "id_alice", true⟩)],
           currentAccount := some "alice", defaultBranch := none,
           repoSettings := none } : Config).accounts "alice" :=
  (identity_frame_property
      { accounts := [("alice", ⟨"Alice", "a@x.io", "id_alice", true⟩)],
        currentAccount := some "alice", defaultBranch := none,
        repoSettings := none }
      "alice" "bob" ⟨"Bob", "b@x.io", "id_bob", false⟩ "" "" "").2.2.2.1
    (by decide)

/-- C9: `getCurrentAccount` returns `null` when the pointer is unset or
dangling, and whenever it returns an identity, that identity carries the
stored handle as its username and is exactly the entry stored under it. -/
theorem getCurrentAccount_sound (c : Config) :
    (c.currentAccount = none → ConfigManager.getCurrentAccount c = none) ∧
    (∀ u, c.currentAccount = some u → lookupKey c.accounts u = none →
        ConfigManager.getCurrentAccount c = none) ∧
    (∀ u a, ConfigManager.getCurrentAccount c = some (u, a) →
        c.currentAccount = some u ∧ lookupKey c.accounts u = some a) := by
  refine ⟨?_, ?_, ?_⟩
  · intro h
    simp [ConfigManager.getCurrentAccount, h]
  · intro u hcur hdangling
    simp [ConfigManager.getCurrentAccount, hcur, hdangling]
  · intro u a hres
    cases hcur : c.currentAccount with
    | none => simp [ConfigManager.getCurrentAccount, hcur] at hres
    | some v =>
        simp only [ConfigManager.getCurrentAccount, hcur] at hres
        by_cases hv : v = ""
        · simp [hv] at hres
        · simp only [if_neg hv] at hres
          cases hlook : lookupKey c.accounts v with
          | none => simp [hlook] at hres
          | some b =>
              simp only [hlook] at hres
              have huv : v = u ∧ b = a := by
                have h' := Option.some.inj hres
                exact ⟨congrArg Prod.fst h', congrArg Prod.snd h'⟩
              obtain ⟨rfl, rfl⟩ := huv
              exact ⟨rfl, hlook⟩

/-- Witness for C9: a dangling pointer ("ghost" has no entry) yields `null`. -/
theorem getCurrentAccount_sound_witness :
    ConfigManager.getCurrentAccount
        { accounts := [("alice", ⟨"Alice", "a@x.io", "id_alice", true⟩)],
          currentAccount := some "ghost", defaultBranch := none,
          repoSettings := none } = none :=
  (getCurrentAccount_sound
      { accounts := [("alice", ⟨"Alice", "a@x.io", "id_alice", true⟩)],
        currentAccount := some "ghost", defaultBranch := none,
        repoSettings := none }).2.1 "ghost" rfl (by decide)

/-! ## Repository state inspector (`CLI.checkRepositoryStatus`, lines 1318–1346)

`git status` failing means "not a repository"; `git remote get-url origin`
failing means "no remote"; otherwise the trimmed output is the remote URL and
the insecure-transport flag is `remoteUrl.startsWith("https://")`.  The two
subprocess outcomes are the function's inputs. -/

structure RepoStatus where
  isGitRepo : Bool
  hasRemote : Bool
  hasHttpsRemote : Bool
  remoteUrl : Option String
deriving DecidableEq, Repr

/-- JavaScript `String.prototype.trim`: strip the WhiteSpace and
LineTerminator characters from both ends. -/
def jsWhitespace (c : Char) : Bool :=
  c = ' ' || c = '\t' || c = '\n' || c = '\x0d' || c = '\x0b' || c = '\x0c' ||
    c = '\u00a0' || c = '\ufeff' || c = '\u2028' || c = '\u2029'

def jsTrim (s : String) : String :=
  ⟨((s.data.dropWhile jsWhitespace).reverse.dropWhile jsWhitespace).reverse⟩

/-- JavaScript `String.prototype.startsWith` with no position argument. -/
def jsStartsWith (s pre : String) : Bool :=
  pre.data.isPrefixOf s.data

def checkRepositoryStatus (statusOk : Bool) (remoteUrlOut : Option String) :
    RepoStatus :=
  if statusOk then
    match remoteUrlOut with
    | none =>
        { isGitRepo := true, hasRemote := false, hasHttpsRemote := false,
          remoteUrl := none }
    | some out =>
        { isGitRepo := true, hasRemote := true,
          hasHttpsRemote := jsStartsWith (jsTrim out) "https://",
          remoteUrl := some (jsTrim out) }
  else
    { isGitRepo := false, hasRemote := false, hasHttpsRemote := false,
      remoteUrl := none }

/-! ## HTTPS → SSH conversion (`CLI.convertToSSHRemote`, lines 1423–1446)

The source matches the remote URL against the JavaScript regular expression
`/https:\/\/github\.com\/(.+)\/(.+)\.git/` and, only on a match, runs
`git remote set-url origin git@github.com:<g1>/<g2>.git`.  The embedding
reproduces the regex engine's behaviour on this pattern: the match is taken
at the leftmost possible start position, `.` matches every character except
the four line terminators, and each `(.+)` is greedy — it captures the
longest text that still lets the rest of the pattern match (backtracking).
The pattern is anchored at neither end. -/

def dotOk (c : Char) : Bool :=
  !(c = '\n' || c = '\x0d' || c = '\u2028' || c = '\u2029')

def litHTTPS : List Char := "https://github.com/".data

def litDotGit : List Char := ".git".data

def headIsSlash : List Char → Bool
  | '/' :: _ => true
  | _ => false

/-- Largest `i` in `[1..n]` accepted by `valid`, mirroring how a greedy `(.+)`
backtracks from the longest candidate capture downward. -/
def findGreedy (valid : Nat → Bool) : Nat → Option Nat
  | 0 => none
  | n + 1 => if valid (n + 1) then some (n + 1) else findGreedy valid n

/-- Greedy capture for the trailing `(.+)\.git` on the text `t`. -/
def group2At (t : List Char) : Option (List Char) :=
  match findGreedy
      (fun j => (t.take j).all dotOk && litDotGit.isPrefixOf (t.drop j))
      t.length with
  | some j => some (t.take j)
  | none => none

/-- Greedy captures for `(.+)\/(.+)\.git` on the text following the literal
`https://github.com/`. -/
def groupsAt (rest : List Char) : Option (List Char × List Char) :=
  match findGreedy
      (fun i => (rest.take i).all dotOk && headIsSlash (rest.drop i) &&
        (group2At (rest.drop (i + 1))).isSome)
      rest.length with
  | some i =>
      match group2At (rest.drop (i + 1)) with
      | some b => some (rest.take i, b)
      | none => none
  | none => none

/-- Leftmost unanchored match of the conversion regex. -/
def matchHttps : List Char → Option (List Char × List Char)
  | [] => none
  | c :: tl =>
      if litHTTPS.isPrefixOf (c :: tl) then
        match groupsAt (List.drop litHTTPS.length (c :: tl)) with
        | some ab => some ab
        | none => matchHttps tl
      else matchHttps tl

/-- The SSH URL `convertToSSHRemote` builds when the regex matches. -/
def convertToSSHUrl (httpsUrl : String) : Option String :=
  match matchHttps httpsUrl.data with
  | some (a, b) =>
      some (("git@github.com:".data ++ a ++ '/' :: b ++ ".git".data).asString)
  | none => none

/-- `convertToSSHRemote` as a state step: the resulting remote URL together
with the `git remote set-url` commands it issues.  On a non-matching URL the
`if (match)` guard skips the conversion entirely. -/
def convertToSSHRemote (remoteUrl : String) : String × List String :=
  match convertToSSHUrl remoteUrl with
  | some ssh => (ssh, ["git remote set-url origin " ++ ssh])
  | none => (remoteUrl, [])

/-! ## Claims C2, C10 -/

/-- C2: the URL `https://github.com/u/r.git` is flagged as insecure transport
by the inspector, and conversion rewrites the remote to exactly
`git@github.com:u/r.git`. -/
theorem https_url_flagged_and_converted :
    (checkRepositoryStatus true
        (some "https://github.com/u/r.git")).hasHttpsRemote = true ∧
    convertToSSHRemote "https://github.com/u/r.git" =
      ("git@github.com:u/r.git",
        ["git remote set-url origin git@github.com:u/r.git"]) := by
  constructor
  · decide
  · rfl

/-- C10: a remote URL that the conversion regex does not match — even one the
inspector flagged as insecure — is left unchanged, and no `set-url` command
is issued. -/
theorem convert_no_match_is_noop (url : String)
    (hflag : (checkRepositoryStatus true (some url)).hasHttpsRemote = true)
    (hnomatch : matchHttps url.data = none) :
    convertToSSHRemote url = (url, []) := by
  simp [convertToSSHRemote, convertToSSHUrl, hnomatch]

/-- Witness for C10: `https://github.com/u/r` (missing the `.git` suffix) is
flagged insecure yet converted to nothing. -/
theorem convert_no_match_is_noop_witness :
    convertToSSHRemote "https://github.com/u/r" = ("https://github.com/u/r", []) :=
  convert_no_match_is_noop "https://github.com/u/r" (by decide) (by decide)

/-! ## Push handling (`CLI.handlePush`, lines 632–744)

After the commit sub-step, `handlePush` prompts once for the push type and
offers exactly two choices: "Normal Push" (`git push origin <branch>`) and
"Force Push" (`git push --force-with-lease origin <branch>`).  It runs the
chosen command; on failure it inspects `error.message` with
`includes("no upstream branch")` and, when the substring is present, makes a
single silent retry with `git push --set-upstream origin <branch>`; any other
failure is reported and nothing is retried. -/

/-- JavaScript `String.prototype.includes`: substring containment. -/
def includesSubstr : List Char → List Char → Bool
  | needle, [] => needle.isEmpty
  | needle, c :: tl => needle.isPrefixOf (c :: tl) || includesSubstr needle tl

/-- Outcome of a subprocess run by `GitManager.executeGitCommand`: either the
captured output or the error whose `message` drives the fallback logic. -/
inductive ExecResult where
  | ok (stdout stderr : String)
  | err (message : String)
deriving DecidableEq, Repr

/-- The two values of the `pushType` prompt (lines 691–701). -/
inductive PushType where
  | normal
  | force
deriving DecidableEq, Repr

/-- The choices the `pushType` prompt offers — always this fixed list,
whatever the local/remote ref state is. -/
def handlePushChoices : List PushType := [PushType.normal, PushType.force]

/-- The command run for a chosen push type (lines 704–713). -/
def pushCommandFor (pt : PushType) (branch : String) : String :=
  match pt with
  | .force => "git push --force-with-lease origin " ++ branch
  | .normal => "git push origin " ++ branch

def noUpstreamSignal : List Char := "no upstream branch".data

/-- What a push run reports back to the menu loop. -/
inductive PushOutcome where
  | pushed
  | upstreamSet
  | upstreamFailed (message : String)
  | failed (message : String)
deriving DecidableEq, Repr

/-- The execution part of `handlePush` (lines 703–744), with the external
`git` processes supplied as `runGit`.  Returns the git commands issued, in
order, and the final outcome.  This fragment contains no prompt: the
upstream fallback runs without asking the user again. -/
def handlePushExec (runGit : String → ExecResult) (pt : PushType)
    (branch : String) : List String × PushOutcome :=
  let cmd := pushCommandFor pt branch
  match runGit cmd with
  | .ok _ _ => ([cmd], .pushed)
  | .err msg =>
      if includesSubstr noUpstreamSignal msg.data then
        let upCmd := "git push --set-upstream origin " ++ branch
        match runGit upCmd with
        | .ok _ _ => ([cmd, upCmd], .upstreamSet)
        | .err m2 => ([cmd, upCmd], .upstreamFailed m2)
      else ([cmd], .failed msg)

/-- `handlePush` from the push-type prompt on: the prompts shown to the user
(always the single push-type prompt — no later prompt on any path) together
with the issued commands and the outcome. -/
def handlePushInteraction (runGit : String → ExecResult) (pt : PushType)
    (branch : String) : List String × List String × PushOutcome :=
  (["Push to origin/" ++ branch ++ ":"],
    (handlePushExec runGit pt branch).1, (handlePushExec runGit pt branch).2)

/-! ## Claim C7 -/

/-- C7: a push failure whose message contains the no-upstream signal triggers
exactly one silent retry, `git push --set-upstream origin <branch>`; a push
failure without the signal is surfaced as the outcome and nothing further is
run.  In both cases the user is prompted exactly once (for the push type),
never again after the failure. -/
theorem push_failure_upstream_fallback (runGit : String → ExecResult)
    (pt : PushType) (branch msg : String)
    (herr : runGit (pushCommandFor pt branch) = .err msg) :
    (includesSubstr noUpstreamSignal msg.data = true →
        (handlePushExec runGit pt branch).1 =
          [pushCommandFor pt branch,
            "git push --set-upstream origin " ++ branch]) ∧
    (includesSubstr noUpstreamSignal msg.data = false →
        handlePushExec runGit pt branch =
          ([pushCommandFor pt branch], .failed msg)) ∧
    (handlePushInteraction runGit pt branch).1 =
      ["Push to origin/" ++ branch ++ ":"] := by
  refine ⟨?_, ?_, rfl⟩
  · intro hsig
    simp only [handlePushExec, herr, hsig, if_true]
    cases runGit ("git push --set-upstream origin " ++ branch) <;> rfl
  · intro hsig
    simp [handlePushExec, herr, hsig]

/-- Witness for C7: a concrete `runGit` whose first push fails with the
no-upstream message; the fallback issues exactly the set-upstream push. -/
theorem push_failure_upstream_fallback_witness :
    (handlePushExec
        (fun c =>
          if c = "git push origin main" then
            .err "fatal: The current branch main has no upstream branch"
          else .ok "" "")
        PushType.normal "main").1 =
      ["git push origin main", "git push --set-upstream origin main"] :=
  (push_failure_upstream_fallback
      (fun c =>
        if c = "git push origin main" then
          .err "fatal: The current branch main has no upstream branch"
        else .ok "" "")
      PushType.normal "main"
      "fatal: The current branch main has no upstream branch"
      (by decide)).1 (by decide)

/-! ## Claim C1: the push-strategy classification

The specification (and the repository's README, section "Intelligent Push
Detection") describe a classification of the local/upstream comparison into
\{ahead, behind, diverged, even\} with a class-specific strategy menu.  The
following two definitions are the specification's decision table; the code
in `index.js` does not contain it — `handlePush` never computes ahead/behind
counts and always offers the fixed two-entry menu `handlePushChoices`. -/

/-- Modelled from the spec: the four classes of a `BranchComparison`. -/
inductive BranchClass where
  | ahead
  | behind
  | diverged
  | even
deriving DecidableEq, Repr

/-- Modelled from the spec: "ahead_count > 0, behind_count == 0 → ahead;
ahead_count == 0, behind_count > 0 → behind; both > 0 → diverged;
both == 0 → even". -/
def classifyComparison (aheadCount behindCount : Nat) : BranchClass :=
  if 0 < aheadCount then
    if 0 < behindCount then .diverged else .ahead
  else
    if 0 < behindCount then .behind else .even

/-- Modelled from the spec: the strategy menu offered for each class. -/
inductive PushStrategy where
  | normal
  | forceWithLease
  | forceOverride
  | fetchThenForce
  | pullThenPush
  | cancel
deriving DecidableEq, Repr

/-- Modelled from the spec: the menus of §4.1 of the specification. -/
def specPushMenu : BranchClass → List PushStrategy
  | .ahead => [.normal, .forceWithLease, .forceOverride]
  | .behind => [.pullThenPush, .forceWithLease, .forceOverride, .cancel]
  | .diverged => [.fetchThenForce, .forceWithLease, .forceOverride, .normal, .cancel]
  | .even => [.normal]

/-- C1: evaluated at the claim's "ahead" instance (2 commits ahead, 0
behind).  The spec classifies it as `ahead` with the three-strategy menu;
the code's `handlePush` offers its fixed two-entry menu — it has no
force-override entry and no classification at all, so the claimed menu rule
does not hold of the code. -/
theorem push_menu_missing_classification :
    classifyComparison 2 0 = BranchClass.ahead ∧
    specPushMenu BranchClass.ahead =
      [PushStrategy.normal, PushStrategy.forceWithLease,
        PushStrategy.forceOverride] ∧
    handlePushChoices.map (fun pt => pushCommandFor pt "main") =
      ["git push origin main", "git push --force-with-lease origin main"] ∧
    handlePushChoices.length ≠ (specPushMenu (classifyComparison 2 0)).length := by
  refine ⟨rfl, rfl, rfl, by decide⟩

/-! ## Claim C6: add-account with an existing key file (lines 493–533)

With key method "use existing file", `CLI.addAccount` asks for the key name,
then checks `SSHManager.validateSSHKey` (an `fs.existsSync` on
`~/.ssh/<name>`, lines 100–103).  If the file is missing it prints an error
and returns before `config.addAccount` / `config.setCurrentAccount` run, so
nothing is persisted.  The filesystem probe is the `sshKeyExists` parameter;
the returned list holds the store states persisted by `saveConfig`, in
order. -/

def addAccountFileMethod (c : Config) (sshKeyExists : String → Bool)
    (username email name existingKeyName : String) : Config × List Config :=
  if sshKeyExists existingKeyName then
    let c1 := ConfigManager.addAccount c username
      { name := name, email := email, sshKey := existingKeyName,
        customKey := false }
    let c2 := ConfigManager.setCurrentAccount c1 username
    (c2, [c1, c2])
  else (c, [])

/-- C6: when the named key file does not exist, the add-account flow aborts
before any persistence: the store is exactly as before and no save happens. -/
theorem addAccount_missing_key_aborts (c : Config) (sshKeyExists : String → Bool)
    (username email name keyName : String)
    (hmissing : sshKeyExists keyName = false) :
    addAccountFileMethod c sshKeyExists username email name keyName = (c, []) := by
  simp [addAccountFileMethod, hmissing]

/-- Witness for C6: adding "alice" with key "id_alice" on a filesystem with
no key files leaves the empty store untouched. -/
theorem addAccount_missing_key_aborts_witness :
    addAccountFileMethod initialConfig (fun _ => false)
        "alice" "a@x.io" "Alice" "id_alice" = (initialConfig, []) :=
  addAccount_missing_key_aborts initialConfig (fun _ => false)
    "alice" "a@x.io" "Alice" "id_alice" rfl

/-! ## The persisted JSON document (claims C4, C5)

`saveConfig` (lines 31–37) writes `JSON.stringify(this.config, null, 2)` and
`loadConfig` (lines 19–29) reads the file back with `JSON.parse`, falling
back to `{accounts: {}, currentAccount: null}` when the file is missing or
the parse throws.  `Json` below is the value universe the tool's
configurations live in: objects are `objNil` / `objCons` chains (an entry
list, preserving order), leaves are strings, booleans and null — exactly
the shapes `JSON.stringify` receives from the reachable configurations,
which contain no numbers and no arrays.  `render` reproduces
`JSON.stringify(·, null, 2)` character by character (two-space indentation,
`",\n"` separators, `": "` after keys, the string-escaping rules of
ECMA-262 `QuoteJSONString`); `parseValue` is a recursive-descent reader of
the same fragment of JSON, so that on every document the tool itself writes
it agrees with `JSON.parse`. -/

inductive Json where
  | null : Json
  | bool : Bool → Json
  | str : List Char → Json
  | objNil : Json
  | objCons : List Char → Json → Json → Json
deriving DecidableEq, Repr

def jsize : Json → Nat
  | .objCons _ v rest => 1 + jsize v + jsize rest
  | _ => 1

/-- Lowercase hexadecimal digit, as produced by `toString(16)`. -/
def hexDigitChar (n : Nat) : Char :=
  if n < 10 then Char.ofNat ('0'.toNat + n)
  else Char.ofNat ('a'.toNat + (n - 10))

/-- ECMA-262 `QuoteJSONString`, per character: escape the quote, the
backslash and the named control characters, `\u00xx`-escape the remaining
control characters, and copy everything else. -/
def quoteChar (c : Char) : List Char :=
  if c = '"' then ['\\', '"']
  else if c = '\\' then ['\\', '\\']
  else if c = '\x08' then ['\\', 'b']
  else if c = '\t' then ['\\', 't']
  else if c = '\n' then ['\\', 'n']
  else if c = '\x0c' then ['\\', 'f']
  else if c = '\x0d' then ['\\', 'r']
  else if c.toNat < 0x20 then
    ['\\', 'u', '0', '0', hexDigitChar (c.toNat / 16), hexDigitChar (c.toNat % 16)]
  else [c]

def quoteBody (s : List Char) : List Char := (s.map quoteChar).flatten

def quoteString (s : List Char) : List Char := '"' :: quoteBody s ++ ['"']

def nspaces (n : Nat) : List Char := List.replicate n ' '

/-! `render` is `JSON.stringify(v, null, 2)` at nesting level `n`:
`renderMembers` lays out the members of a non-empty object, one per line,
indented two spaces deeper than the braces. -/

mutual

def render : Json → Nat → List Char
  | .null, _ => "null".data
  | .bool true, _ => "true".data
  | .bool false, _ => "false".data
  | .str s, _ => quoteString s
  | .objNil, _ => "\x7b\x7d".data
  | .objCons k v rest, n =>
      '\x7b' :: '\n' :: renderMembers k v rest (n + 1) ++
        '\n' :: nspaces (2 * n) ++ "\x7d".data
termination_by j _ => 2 * jsize j + 1
decreasing_by
  simp [jsize]
  omega

def renderMembers : List Char → Json → Json → Nat → List Char
  | k, v, rest, n =>
      nspaces (2 * n) ++ quoteString k ++ ':' :: ' ' :: render v n ++
        renderCont rest n
termination_by _ v rest _ => 2 * (jsize v + jsize rest) + 2
decreasing_by
  · simp [jsize]
    omega
  · simp [jsize]
    omega

def renderCont : Json → Nat → List Char
  | .objCons k2 v2 r2, n => ',' :: '\n' :: renderMembers k2 v2 r2 n
  | _, _ => []
termination_by rest _ => 2 * jsize rest + 1
decreasing_by
  simp [jsize]
  omega

end

/-- The JSON whitespace characters skipped by `JSON.parse`. -/
def isWs (c : Char) : Bool :=
  c = ' ' || c = '\t' || c = '\n' || c = '\x0d'

def skipWs (s : List Char) : List Char := s.dropWhile isWs

def hexVal (c : Char) : Option Nat :=
  if '0' ≤ c ∧ c ≤ '9' then some (c.toNat - '0'.toNat)
  else if 'a' ≤ c ∧ c ≤ 'f' then some (c.toNat - 'a'.toNat + 10)
  else if 'A' ≤ c ∧ c ≤ 'F' then some (c.toNat - 'A'.toNat + 10)
  else none

/-- Read the remainder of a JSON string literal (the opening quote already
consumed): ordinary characters, the named escapes, and `\uXXXX`. -/
def parseStringRest : List Char → Option (List Char × List Char)
  | [] => none
  | c :: r =>
      if c = '"' then some ([], r)
      else if c = '\\' then
        match r with
        | [] => none
        | e :: r2 =>
            if e = '"' then
              (parseStringRest r2).map (fun p => ('"' :: p.1, p.2))
            else if e = '\\' then
              (parseStringRest r2).map (fun p => ('\\' :: p.1, p.2))
            else if e = '/' then
              (parseStringRest r2).map (fun p => ('/' :: p.1, p.2))
            else if e = 'b' then
              (parseStringRest r2).map (fun p => ('\x08' :: p.1, p.2))
            else if e = 'f' then
              (parseStringRest r2).map (fun p => ('\x0c' :: p.1, p.2))
            else if e = 'n' then
              (parseStringRest r2).map (fun p => ('\n' :: p.1, p.2))
            else if e = 'r' then
              (parseStringRest r2).map (fun p => ('\x0d' :: p.1, p.2))
            else if e = 't' then
              (parseStringRest r2).map (fun p => ('\t' :: p.1, p.2))
            else if e = 'u' then
              match r2 with
              | h1 :: h2 :: h3 :: h4 :: r3 =>
                  match hexVal h1, hexVal h2, hexVal h3, hexVal h4 with
                  | some a, some b, some c3, some d =>
                      let code := ((a * 16 + b) * 16 + c3) * 16 + d
                      if Nat.isValidChar code then
                        (parseStringRest r3).map
                          (fun p => (Char.ofNat code :: p.1, p.2))
                      else none
                  | _, _, _, _ => none
              | _ => none
            else none
      else if c.toNat < 0x20 then none
      else (parseStringRest r).map (fun p => (c :: p.1, p.2))

/-- Strip an expected literal from the front of the input. -/
def stripLit : List Char → List Char → Option (List Char)
  | [], s => some s
  | _ :: _, [] => none
  | c :: cs, d :: s => if c = d then stripLit cs s else none

/-! `parseValue` is a recursive-descent reader for the JSON fragment the
tool writes: objects, strings, booleans and null.  The fuel only bounds
nesting; any fuel above `jsize` of the document suffices, and the top-level
wrapper `parseJson` supplies more than the rendered length. -/

mutual

def parseValue : Nat → List Char → Option (Json × List Char)
  | 0, _ => none
  | fuel + 1, input =>
      match skipWs input with
      | [] => none
      | c :: r =>
          if c = '"' then
            match parseStringRest r with
            | some (s, r1) => some (.str s, r1)
            | none => none
          else if c = '\x7b' then
            match skipWs r with
            | '\x7d' :: r1 => some (.objNil, r1)
            | _ => parseMembers fuel r
          else if c = 'n' then
            match stripLit "ull".data r with
            | some r1 => some (.null, r1)
            | none => none
          else if c = 't' then
            match stripLit "rue".data r with
            | some r1 => some (.bool true, r1)
            | none => none
          else if c = 'f' then
            match stripLit "alse".data r with
            | some r1 => some (.bool false, r1)
            | none => none
          else none

def parseMembers : Nat → List Char → Option (Json × List Char)
  | 0, _ => none
  | fuel + 1, input =>
      match skipWs input with
      | '"' :: r =>
          match parseStringRest r with
          | some (k, r1) =>
              match skipWs r1 with
              | ':' :: r2 =>
                  match parseValue fuel r2 with
                  | some (v, r3) =>
                      match skipWs r3 with
                      | ',' :: r4 =>
                          match parseMembers fuel r4 with
                          | some (rest, r5) => some (.objCons k v rest, r5)
                          | none => none
                      | '\x7d' :: r4 => some (.objCons k v .objNil, r4)
                      | _ => none
                  | none => none
              | _ => none
          | none => none
      | _ => none

end

/-- `JSON.parse`: one value, then nothing but trailing whitespace. -/
def parseJson (s : List Char) : Option Json :=
  match parseValue (s.length + 1) s with
  | some (j, r) => if skipWs r = [] then some j else none
  | none => none

/-- Objects in the sense of the tool's configurations: every `objCons` tail
is again an object chain. -/
def isObjShape : Json → Bool
  | .objNil => true
  | .objCons _ _ _ => true
  | _ => false

def jsonWF : Json → Bool
  | .objCons _ v rest => jsonWF v && isObjShape rest && jsonWF rest
  | _ => true

/-! ### The save/load round trip -/

theorem stripLit_append (l rest : List Char) : stripLit l (l ++ rest) = some rest := by
  induction l with
  | nil => rfl
  | cons c cs ih => simp [stripLit, ih]

theorem skipWs_cons_true (c : Char) (x : List Char) (h : isWs c = true) :
    skipWs (c :: x) = skipWs x := by
  simp [skipWs, List.dropWhile, h]

theorem skipWs_cons_false (c : Char) (x : List Char) (h : isWs c = false) :
    skipWs (c :: x) = c :: x := by
  simp [skipWs, List.dropWhile, h]

theorem skipWs_ws_append (w x : List Char) (h : w.all isWs = true) :
    skipWs (w ++ x) = skipWs x := by
  induction w with
  | nil => rfl
  | cons c cs ih =>
      simp only [List.all_cons, Bool.and_eq_true] at h
      rw [List.cons_append, skipWs_cons_true _ _ h.1]
      exact ih h.2

theorem nspaces_all_ws (m : Nat) : (nspaces m).all isWs = true := by
  induction m with
  | zero => rfl
  | succ n ih => simpa [nspaces, List.replicate_succ, List.all_cons, isWs] using ih

theorem skipWs_nspaces_append (m : Nat) (x : List Char) :
    skipWs (nspaces m ++ x) = skipWs x :=
  skipWs_ws_append _ _ (nspaces_all_ws m)

theorem hexVal_hexDigitChar (n : Nat) (h : n < 16) :
    hexVal (hexDigitChar n) = some n := by
  interval_cases n <;> decide

theorem parseStringRest_quote (s rest : List Char) :
    parseStringRest (quoteBody s ++ '"' :: rest) = some (s, rest) := by
  induction s with
  | nil =>
      simp only [quoteBody, List.map_nil, List.flatten_nil, List.nil_append]
      rw [parseStringRest.eq_def]
      simp
  | cons c cs ih =>
      have hbody : quoteBody (c :: cs) ++ '"' :: rest =
          quoteChar c ++ (quoteBody cs ++ '"' :: rest) := by
        simp [quoteBody]
      rw [hbody]
      by_cases h1 : c = '"'
      · subst h1
        rw [show quoteChar '"' = ['\\', '"'] from by decide]
        rw [List.cons_append, List.cons_append, List.nil_append,
          parseStringRest.eq_def]
        simp +decide [ih]
      · by_cases h2 : c = '\\'
        · subst h2
          rw [show quoteChar '\\' = ['\\', '\\'] from by decide]
          rw [List.cons_append, List.cons_append, List.nil_append,
            parseStringRest.eq_def]
          simp +decide [ih]
        · by_cases h3 : c = '\x08'
          · subst h3
            rw [show quoteChar '\x08' = ['\\', 'b'] from by decide]
            rw [List.cons_append, List.cons_append, List.nil_append,
              parseStringRest.eq_def]
            simp +decide [ih]
          · by_cases h4 : c = '\t'
            · subst h4
              rw [show quoteChar '\t' = ['\\', 't'] from by decide]
              rw [List.cons_append, List.cons_append, List.nil_append,
                parseStringRest.eq_def]
              simp +decide [ih]
            · by_cases h5 : c = '\n'
              · subst h5
                rw [show quoteChar '\n' = ['\\', 'n'] from by decide]
                rw [List.cons_append, List.cons_append, List.nil_append,
                  parseStringRest.eq_def]
                simp +decide [ih]
              · by_cases h6 : c = '\x0c'
                · subst h6
                  rw [show quoteChar '\x0c' = ['\\', 'f'] from by decide]
                  rw [List.cons_append, List.cons_append, List.nil_append,
                    parseStringRest.eq_def]
                  simp +decide [ih]
                · by_cases h7 : c = '\x0d'
                  · subst h7
                    rw [show quoteChar '\x0d' = ['\\', 'r'] from by decide]
                    rw [List.cons_append, List.cons_append, List.nil_append,
                      parseStringRest.eq_def]
                    simp +decide [ih]
                  · by_cases h8 : c.toNat < 0x20
                    · have hq : quoteChar c = ['\\', 'u', '0', '0',
                          hexDigitChar (c.toNat / 16),
                          hexDigitChar (c.toNat % 16)] := by
                        rw [quoteChar]
                        simp only [h1, h2, h3, h4, h5, h6, h7, h8,
                          if_false, if_true, if_neg, ite_false]
                      have hd1 := hexVal_hexDigitChar (c.toNat / 16) (by omega)
                      have hd2 := hexVal_hexDigitChar (c.toNat % 16)
                        (Nat.mod_lt _ (by omega))
                      have hcode : c.toNat / 16 * 16 + c.toNat % 16 =
                          c.toNat := by
                        have := Nat.div_add_mod c.toNat 16
                        omega
                      have hvalid : Nat.isValidChar c.toNat := Or.inl (by omega)
                      have h0 : hexVal '0' = some 0 := by decide
                      rw [hq]
                      rw [List.cons_append, List.cons_append, List.cons_append,
                        List.cons_append, List.cons_append, List.cons_append,
                        List.nil_append, parseStringRest.eq_def]
                      simp +decide [h0, hd1, hd2, hcode, hvalid,
                        Char.ofNat_toNat, ih]
                    · have hq : quoteChar c = [c] := by
                        rw [quoteChar]
                        simp only [h1, h2, h3, h4, h5, h6, h7, h8,
                          if_false, ite_false]
                      rw [hq, List.cons_append, List.nil_append,
                        parseStringRest.eq_def]
                      simp only [h1, h2, h8, if_false, ite_false, ih]
                      simp

theorem jsize_pos (j : Json) : 1 ≤ jsize j := by
  cases j <;> simp [jsize] <;> omega

theorem two_le_quoteString_length (s : List Char) :
    2 ≤ (quoteString s).length := by
  simp [quoteString]

theorem jsize_le_render_length (j : Json) :
    (∀ n, jsize j ≤ (render j n).length) ∧
    (∀ k v r2 n, j = Json.objCons k v r2 →
        jsize v + jsize r2 ≤ (renderMembers k v r2 n).length) := by
  induction j with
  | null =>
      refine ⟨fun n => ?_, fun k v r2 n h => Json.noConfusion h⟩
      simp only [jsize, render]
      decide
  | bool b =>
      refine ⟨fun n => ?_, fun k v r2 n h => Json.noConfusion h⟩
      cases b <;> simp only [jsize, render] <;> decide
  | str s =>
      refine ⟨fun n => ?_, fun k v r2 n h => Json.noConfusion h⟩
      have hk := two_le_quoteString_length s
      simp only [jsize, render]
      omega
  | objNil =>
      refine ⟨fun n => ?_, fun k v r2 n h => Json.noConfusion h⟩
      simp only [jsize, render]
      decide
  | objCons k v r2 ihv ihr =>
      have hQ : ∀ n, jsize v + jsize r2 ≤ (renderMembers k v r2 n).length := by
        intro n
        have hv := ihv.1 n
        have hk := two_le_quoteString_length k
        cases r2 with
        | objCons k2 v2 r3 =>
            have hm := ihr.2 k2 v2 r3 n rfl
            simp only [renderMembers, renderCont, jsize, List.length_append,
              List.length_cons, nspaces, List.length_replicate] at *
            omega
        | null =>
            simp only [renderMembers, renderCont, jsize, List.length_append,
              List.length_cons, nspaces, List.length_replicate] at *
            omega
        | bool b =>
            cases b <;>
              simp only [renderMembers, renderCont, jsize, List.length_append,
                List.length_cons, nspaces, List.length_replicate] at * <;>
              omega
        | str s =>
            simp only [renderMembers, renderCont, jsize, List.length_append,
              List.length_cons, nspaces, List.length_replicate] at *
            omega
        | objNil =>
            simp only [renderMembers, renderCont, jsize, List.length_append,
              List.length_cons, nspaces, List.length_replicate] at *
            omega
      refine ⟨fun n => ?_, fun k' v' r2' n h => ?_⟩
      · have hm := hQ (n + 1)
        have hbr : ("\x7d".data).length = 1 := rfl
        simp only [render, jsize, List.length_append, List.length_cons,
          nspaces, List.length_replicate, hbr]
        omega
      · cases h
        exact hQ n

theorem skipWs_renderMembers (k : List Char) (v r2 : Json) (n : Nat)
    (z w : List Char) (hw : w.all isWs = true) :
    skipWs (w ++ (renderMembers k v r2 n ++ z)) =
      '"' :: (quoteBody k ++ ('"' :: (':' :: ' ' ::
        (render v n ++ (renderCont r2 n ++ z))))) := by
  rw [skipWs_ws_append _ _ hw]
  have hm : renderMembers k v r2 n ++ z =
      nspaces (2 * n) ++ ('"' :: (quoteBody k ++ ('"' :: (':' :: ' ' ::
        (render v n ++ (renderCont r2 n ++ z)))))) := by
    simp [renderMembers, quoteString, List.append_assoc]
  rw [hm, skipWs_nspaces_append, skipWs_cons_false _ _ (by decide)]

theorem parse_render_aux (j : Json) :
    (∀ w n rest fuel, w.all isWs = true → jsize j < fuel → jsonWF j = true →
        parseValue fuel (w ++ (render j n ++ rest)) = some (j, rest)) ∧
    (∀ k v r2, j = Json.objCons k v r2 →
      ∀ w n m tail fuel, w.all isWs = true → jsize j ≤ fuel →
        jsonWF j = true →
        parseMembers fuel (w ++ (renderMembers k v r2 n ++
            ('\n' :: (nspaces m ++ '\x7d' :: tail)))) =
          some (j, tail)) := by
  induction j with
  | null =>
      refine ⟨?_, fun k v r2 h => Json.noConfusion h⟩
      intro w n rest fuel hw hfuel _
      cases fuel with
      | zero => simp [jsize] at hfuel
      | succ f =>
          have hr : render Json.null n ++ rest = 'n' :: 'u' :: 'l' :: 'l' :: rest := by
            simp only [render]
            rfl
          rw [hr, parseValue.eq_def]
          simp only []
          rw [skipWs_ws_append _ _ hw, skipWs_cons_false _ _ (by decide)]
          have hsl : stripLit "ull".data ('u' :: 'l' :: 'l' :: rest) = some rest :=
            stripLit_append "ull".data rest
          simp +decide [hsl]
  | bool b =>
      refine ⟨?_, fun k v r2 h => Json.noConfusion h⟩
      intro w n rest fuel hw hfuel _
      cases fuel with
      | zero => simp [jsize] at hfuel
      | succ f =>
          cases b
          · have hr : render (Json.bool false) n ++ rest =
                'f' :: 'a' :: 'l' :: 's' :: 'e' :: rest := by
              simp only [render]
              rfl
            rw [hr, parseValue.eq_def]
            simp only []
            rw [skipWs_ws_append _ _ hw, skipWs_cons_false _ _ (by decide)]
            have hsl : stripLit "alse".data ('a' :: 'l' :: 's' :: 'e' :: rest) =
                some rest := stripLit_append "alse".data rest
            simp +decide [hsl]
          · have hr : render (Json.bool true) n ++ rest =
                't' :: 'r' :: 'u' :: 'e' :: rest := by
              simp only [render]
              rfl
            rw [hr, parseValue.eq_def]
            simp only []
            rw [skipWs_ws_append _ _ hw, skipWs_cons_false _ _ (by decide)]
            have hsl : stripLit "rue".data ('r' :: 'u' :: 'e' :: rest) =
                some rest := stripLit_append "rue".data rest
            simp +decide [hsl]
  | str s =>
      refine ⟨?_, fun k v r2 h => Json.noConfusion h⟩
      intro w n rest fuel hw hfuel _
      cases fuel with
      | zero => simp [jsize] at hfuel
      | succ f =>
          have hr : render (Json.str s) n ++ rest =
              '"' :: (quoteBody s ++ '"' :: rest) := by
            simp [render, quoteString]
          rw [hr, parseValue.eq_def]
          simp only []
          rw [skipWs_ws_append _ _ hw, skipWs_cons_false _ _ (by decide)]
          simp +decide [parseStringRest_quote]
  | objNil =>
      refine ⟨?_, fun k v r2 h => Json.noConfusion h⟩
      intro w n rest fuel hw hfuel _
      cases fuel with
      | zero => simp [jsize] at hfuel
      | succ f =>
          have hr : render Json.objNil n ++ rest = '\x7b' :: '\x7d' :: rest := by
            simp only [render]
            rfl
          rw [hr, parseValue.eq_def]
          simp only []
          rw [skipWs_ws_append _ _ hw, skipWs_cons_false _ _ (by decide)]
          simp +decide only []
          rw [skipWs_cons_false _ _ (by decide)]
          simp +decide
  | objCons k v r2 ihv ihr =>
      have hQ : ∀ w n m tail fuel, w.all isWs = true →
          jsize (Json.objCons k v r2) ≤ fuel →
          jsonWF (Json.objCons k v r2) = true →
          parseMembers fuel (w ++ (renderMembers k v r2 n ++
              ('\n' :: (nspaces m ++ '\x7d' :: tail)))) =
            some (Json.objCons k v r2, tail) := by
        intro w n m tail fuel hw hfuel hwf
        have hwf' : jsonWF v = true ∧ isObjShape r2 = true ∧ jsonWF r2 = true := by
          have := hwf
          simp only [jsonWF, Bool.and_eq_true] at this
          exact ⟨this.1.1, this.1.2, this.2⟩
        cases fuel with
        | zero =>
            exfalso
            have h1 := jsize_pos (Json.objCons k v r2)
            omega
        | succ f =>
            simp only [jsize] at hfuel
            have hjv := jsize_pos v
            have hjr := jsize_pos r2
            rw [parseMembers.eq_def]
            simp only []
            rw [skipWs_renderMembers k v r2 n ('\n' :: (nspaces m ++ '\x7d' :: tail)) w hw]
            have hkey := parseStringRest_quote k
              (':' :: ' ' :: (render v n ++ (renderCont r2 n ++
                ('\n' :: (nspaces m ++ '\x7d' :: tail)))))
            have hv0 := ihv.1 [' '] n
              (renderCont r2 n ++ ('\n' :: (nspaces m ++ '\x7d' :: tail))) f
              (by decide) (by omega) hwf'.1
            have hv : parseValue f (' ' :: (render v n ++ (renderCont r2 n ++
                ('\n' :: (nspaces m ++ '\x7d' :: tail))))) =
                some (v, renderCont r2 n ++
                  ('\n' :: (nspaces m ++ '\x7d' :: tail))) := hv0
            simp +decide [hkey]
            rw [skipWs_cons_false _ _ (by decide)]
            simp +decide [hv]
            cases r2 with
            | objNil =>
                simp only [renderCont, List.nil_append]
                rw [skipWs_cons_true _ _ (by decide), skipWs_nspaces_append,
                  skipWs_cons_false _ _ (by decide)]
                simp +decide
            | objCons k2 v2 r3 =>
                simp only [renderCont, List.cons_append]
                rw [skipWs_cons_false _ _ (by decide)]
                have hm0 := ihr.2 k2 v2 r3 rfl ['\n'] n m tail f (by decide)
                  (by omega) hwf'.2.2
                have hm : parseMembers f ('\n' :: (renderMembers k2 v2 r3 n ++
                    ('\n' :: (nspaces m ++ '\x7d' :: tail)))) =
                    some (Json.objCons k2 v2 r3, tail) := hm0
                simp +decide [hm]
            | null => simp [isObjShape] at hwf'
            | bool b => simp [isObjShape] at hwf'
            | str sx => simp [isObjShape] at hwf'
      refine ⟨?_, fun k' v' r2' h => by cases h; exact hQ⟩
      intro w n rest fuel hw hfuel hwf
      cases fuel with
      | zero =>
          exfalso
          have h1 := jsize_pos (Json.objCons k v r2)
          omega
      | succ f =>
          have hr : render (Json.objCons k v r2) n ++ rest =
              '\x7b' :: ('\n' :: (renderMembers k v r2 (n + 1) ++
                ('\n' :: (nspaces (2 * n) ++ '\x7d' :: rest)))) := by
            simp [render, List.append_assoc]
          rw [hr, parseValue.eq_def]
          simp only []
          rw [skipWs_ws_append _ _ hw, skipWs_cons_false _ _ (by decide)]
          simp +decide only []
          have hs0 := skipWs_renderMembers k v r2 (n + 1)
            ('\n' :: (nspaces (2 * n) ++ '\x7d' :: rest)) [] rfl
          have hs : skipWs ('\n' :: (renderMembers k v r2 (n + 1) ++
              ('\n' :: (nspaces (2 * n) ++ '\x7d' :: rest)))) =
              '"' :: (quoteBody k ++ ('"' :: (':' :: ' ' ::
                (render v (n + 1) ++ (renderCont r2 (n + 1) ++
                  ('\n' :: (nspaces (2 * n) ++ '\x7d' :: rest))))))) := by
            rw [skipWs_cons_true _ _ (by decide)]
            exact hs0
          rw [hs]
          have hq0 := hQ ['\n'] (n + 1) (2 * n) rest f (by decide) (by omega) hwf
          have hq : parseMembers f ('\n' :: (renderMembers k v r2 (n + 1) ++
              ('\n' :: (nspaces (2 * n) ++ '\x7d' :: rest)))) =
              some (Json.objCons k v r2, rest) := hq0
          simp +decide [hq]
/-! ### The persisted document of a configuration

`toJson` is the JavaScript object `this.config` as `JSON.stringify` receives
it: the `accounts` map with each identity record in insertion order
(`{name, email, sshKey, customKey}`), the `currentAccount` string or null,
and — only once they have been created — the `defaultBranch` string and the
`repoSettings` map of `{initialBranchSelected, selectedBranch}` records. -/

def accountToJson (a : Account) : Json :=
  .objCons "name".data (.str a.name.data)
    (.objCons "email".data (.str a.email.data)
      (.objCons "sshKey".data (.str a.sshKey.data)
        (.objCons "customKey".data (.bool a.customKey) .objNil)))

def repoSettingToJson (r : RepoSetting) : Json :=
  .objCons "initialBranchSelected".data (.bool r.initialBranchSelected)
    (.objCons "selectedBranch".data (.str r.selectedBranch.data) .objNil)

def entriesToJson {α : Type} (f : α → Json) : List (String × α) → Json
  | [] => .objNil
  | (k, v) :: tl => .objCons k.data (f v) (entriesToJson f tl)

def optEntry (k : String) : Option Json → Json → Json
  | none, tail => tail
  | some j, tail => .objCons k.data j tail

def toJson (c : Config) : Json :=
  Json.objCons "accounts".data (entriesToJson accountToJson c.accounts)
    (Json.objCons "currentAccount".data
      (match c.currentAccount with
       | none => Json.null
       | some u => Json.str u.data)
      (optEntry "defaultBranch" (c.defaultBranch.map (fun b => Json.str b.data))
        (optEntry "repoSettings"
          (c.repoSettings.map (entriesToJson repoSettingToJson))
          Json.objNil)))

/-- `ConfigManager.saveConfig` (lines 31–37): the character content written
to `~/.gitqq-config.json`. -/
def saveConfigFile (c : Config) : List Char := render (toJson c) 0

/-- The fallback store of `loadConfig` (line 28). -/
def defaultStoreJson : Json :=
  Json.objCons "accounts".data Json.objNil
    (Json.objCons "currentAccount".data Json.null Json.objNil)

/-- `ConfigManager.loadConfig` (lines 19–29): a missing or unreadable file,
or one whose contents `JSON.parse` rejects, yields the empty default store;
otherwise the parsed document is used as-is. -/
def loadConfig : Option (List Char) → Json
  | none => defaultStoreJson
  | some s =>
      match parseJson s with
      | some j => j
      | none => defaultStoreJson

theorem jsonWF_accountToJson (a : Account) : jsonWF (accountToJson a) = true := rfl

theorem jsonWF_repoSettingToJson (r : RepoSetting) :
    jsonWF (repoSettingToJson r) = true := rfl

theorem isObjShape_entriesToJson {α : Type} (f : α → Json)
    (l : List (String × α)) : isObjShape (entriesToJson f l) = true := by
  cases l with
  | nil => rfl
  | cons hd tl => obtain ⟨k, a⟩ := hd; rfl

theorem jsonWF_entriesToJson {α : Type} (f : α → Json) (l : List (String × α))
    (hf : ∀ a, jsonWF (f a) = true) : jsonWF (entriesToJson f l) = true := by
  induction l with
  | nil => rfl
  | cons hd tl ih =>
      obtain ⟨k, a⟩ := hd
      simp [entriesToJson, jsonWF, hf a, ih, isObjShape_entriesToJson]

theorem jsonWF_toJson (c : Config) : jsonWF (toJson c) = true := by
  have hA := jsonWF_entriesToJson accountToJson c.accounts jsonWF_accountToJson
  have hR : ∀ l, jsonWF (entriesToJson repoSettingToJson l) = true :=
    fun l => jsonWF_entriesToJson repoSettingToJson l jsonWF_repoSettingToJson
  unfold toJson
  cases c.currentAccount <;> cases c.defaultBranch <;> cases c.repoSettings <;>
    simp [jsonWF, isObjShape, optEntry, hA, hR, isObjShape_entriesToJson]

theorem parseJson_render (j : Json) (hwf : jsonWF j = true) :
    parseJson (render j 0) = some j := by
  have hlen := (jsize_le_render_length j).1 0
  have hp := (parse_render_aux j).1 [] 0 [] ((render j 0).length + 1) rfl
    (by omega) hwf
  have hp2 : parseValue ((render j 0).length + 1) (render j 0) =
      some (j, []) := by
    have hshape : ([] : List Char) ++ (render j 0 ++ []) = render j 0 := by
      simp
    rw [hshape] at hp
    exact hp
  simp [parseJson, hp2, skipWs]

/-- C4: every store reachable from the empty store through the public
mutation operations survives a save/load round trip: parsing the rendered
config file yields back exactly the saved document. -/
theorem config_save_load_roundtrip (ops : List Op) :
    parseJson (saveConfigFile (applyOps ops)) = some (toJson (applyOps ops)) :=
  parseJson_render (toJson (applyOps ops)) (jsonWF_toJson (applyOps ops))

/-- C5: a missing config file or one whose contents do not parse yields the
empty default store (accounts empty, currentAccount null) — which is
exactly the document of the initial store — and loading never fails. -/
theorem loadConfig_fallback_default :
    loadConfig none = toJson initialConfig ∧
    (∀ s, parseJson s = none → loadConfig (some s) = toJson initialConfig) := by
  constructor
  · rfl
  · intro s h
    simp [loadConfig, h]
    rfl

/-- Witness for C5: unparseable file contents fall back to the default. -/
theorem loadConfig_fallback_default_witness :
    loadConfig (some "garbage".data) = toJson initialConfig :=
  loadConfig_fallback_default.2 "garbage".data (by decide)

end GitQQ
